import Mathlib

/-!
Verification of the git-churn diff-metrics engine (packages `gitfuncs` and
`metrics`).  Go strings are modelled as `List Char`, Go slices as `List`,
machine integers as `Nat`/`Int` (all counts in the source are nonnegative),
and fallible operations (including Go runtime panics) as `Option`/`Except`.
The go-git backend (object store, diff computation, revision traversal) is an
external collaborator; the values it hands to the engine (trees, commits,
chunk sequences, per-file stats, rendered patch text) are taken as inputs of
the modelled functions.
-/

namespace GitChurn

/-! ### Modelling `strings.Split(s, "\n")` -/

/-- Helper for `splitOnNl`: returns the first segment (before the first
newline) and the list of remaining segments. -/
def splitNl : List Char → List Char × List (List Char)
  | [] => ([], [])
  | c :: cs =>
    let r := splitNl cs
    if c = '\n' then ([], r.1 :: r.2) else (c :: r.1, r.2)

/-- Model of Go `strings.Split(content, "\n")`: split into segments separated
by newline characters; always returns at least one segment, and a trailing
newline yields a final empty segment, exactly as in Go. -/
def splitOnNl (l : List Char) : List (List Char) :=
  (splitNl l).1 :: (splitNl l).2

/-! ### Diff chunks (`gopkg.in/src-d/go-git.v4/plumbing/format/diff`)

The backend's chunk kinds are `Equal = 0`, `Add = 1`, `Delete = 2`; the
source compares `chunk.Type()` against the literals `0` and `2`. -/

inductive ChunkType where
  | Equal : ChunkType
  | Add : ChunkType
  | Delete : ChunkType
  deriving DecidableEq

/-- One chunk of a file patch: a kind and the literal text block
(`chunk.Content()`). -/
structure Chunk where
  type : ChunkType
  content : List Char
  deriving DecidableEq

/-- Line count of a chunk, as computed at gitfuncs.go:262-266 and 271-275:
`len(strings.Split(content, "\n"))`, minus one when the content ends in a
newline.  The source indexes `chunk.Content()[len(chunk.Content())-1]`,
which panics (index out of range) when the content is empty; that panic is
modelled as `none`. -/
def chunkNumLines (content : List Char) : Option Nat :=
  match content.getLast? with
  | none => none
  | some c =>
    if c = '\n' then some ((splitOnNl content).length - 1)
    else some ((splitOnNl content).length)

/-- Total variant of `chunkNumLines` used only to state partition
hypotheses; it agrees with `chunkNumLines` whenever the latter succeeds. -/
def chunkNumLinesT (content : List Char) : Nat :=
  (chunkNumLines content).getD 0

/-- The lines a non-Add chunk contributes to the "before" file: the first
`chunkNumLinesT` segments of its newline split. -/
def chunkLines (content : List Char) : List (List Char) :=
  (splitOnNl content).take (chunkNumLinesT content)

/-- Model of the inner loop of `DeletedLineNumbers` (gitfuncs.go:258-281)
over one file patch's chunk list, started at `counter`: Equal chunks advance
the before-line counter, Delete chunks record `counter + i` for each of
their 1-indexed lines and then advance the counter, Add chunks are ignored.
Returns the recorded deleted line numbers and the final counter, or `none`
when a chunk with empty content is reached (the source panics there). -/
def deletedLineNumbersChunks : List Chunk → Nat → Option (List Nat × Nat)
  | [], counter => some ([], counter)
  | ch :: rest, counter =>
    match ch.type with
    | ChunkType.Equal =>
      match chunkNumLines ch.content with
      | none => none
      | some n => deletedLineNumbersChunks rest (counter + n)
    | ChunkType.Add => deletedLineNumbersChunks rest counter
    | ChunkType.Delete =>
      match chunkNumLines ch.content with
      | none => none
      | some n =>
        match deletedLineNumbersChunks rest (counter + n) with
        | none => none
        | some (l, fc) =>
          some (((List.range n).map (fun i => counter + i + 1)) ++ l, fc)

/-- Model of the inner loop of `DeletedLineNumbersWhitespaceExcluded`
(gitfuncs.go:300-324): identical to `deletedLineNumbersChunks` except that a
deleted line number is recorded only when the corresponding split segment
`deletedPatch[i-1]` is not the empty string. -/
def deletedLineNumbersChunksWE : List Chunk → Nat → Option (List Nat × Nat)
  | [], counter => some ([], counter)
  | ch :: rest, counter =>
    match ch.type with
    | ChunkType.Equal =>
      match chunkNumLines ch.content with
      | none => none
      | some n => deletedLineNumbersChunksWE rest (counter + n)
    | ChunkType.Add => deletedLineNumbersChunksWE rest counter
    | ChunkType.Delete =>
      match chunkNumLines ch.content with
      | none => none
      | some n =>
        match deletedLineNumbersChunksWE rest (counter + n) with
        | none => none
        | some (l, fc) =>
          some (((List.range n).filterMap (fun i =>
            if (splitOnNl ch.content).getD i [] = [] then none
            else some (counter + i + 1))) ++ l, fc)

/-- Total before-file line count of a chunk list: the sum of the line counts
of its Equal and Delete chunks (Add chunks belong to the "after" file). -/
def chunksBeforeLineCount : List Chunk → Nat
  | [] => 0
  | ch :: rest =>
    match ch.type with
    | ChunkType.Add => chunksBeforeLineCount rest
    | _ => chunkNumLinesT ch.content + chunksBeforeLineCount rest

/-- The "before" file reconstructed from a chunk list: the concatenated
lines of its Equal and Delete chunks. -/
def beforeLinesOf : List Chunk → List (List Char)
  | [] => []
  | ch :: rest =>
    match ch.type with
    | ChunkType.Add => beforeLinesOf rest
    | _ => chunkLines ch.content ++ beforeLinesOf rest

/-- Whether line `n` (1-indexed) of the line list `ls` is the empty string
(out-of-range lines count as empty). -/
def lineBlankAt (ls : List (List Char)) (n : Nat) : Bool :=
  (ls.getD (n - 1) []).isEmpty

/-! ### Trees and line counting (`FileLOCFromTree` and friends)

A backend tree is a list of files; a file carries the line list produced by
the backend's `File.Lines()` (which never contains a trailing empty
segment but does keep whitespace-only lines verbatim). -/

structure GFile where
  name : String
  lines : List (List Char)
  deriving DecidableEq

/-- A commit tree as handed over by the backend. -/
abbrev GTree := List GFile

/-- Model of `FileLOCFromTree` (gitfuncs.go:127-137): iterate over the
tree's files and, on a name match, set the count to that file's number of
lines. -/
def fileLOCFromTree (tree : GTree) (filePath : String) : Nat :=
  tree.foldl (fun loc f => if f.name = filePath then f.lines.length else loc) 0

/-- Model of `FileLOCFromTreeWhitespaceExcluded` (gitfuncs.go:155-169):
iterate over the tree's files and, on a name match, add one for every line
that is not the empty string (note: the source compares with `""` literally;
it does not trim). -/
def fileLOCFromTreeWhitespaceExcluded (tree : GTree) (filePath : String) : Nat :=
  tree.foldl
    (fun loc f =>
      if f.name = filePath then loc + f.lines.countP (fun l => !l.isEmpty)
      else loc)
    0

/-- Spec-side helper: the tree with every literally-empty line removed from
every file. -/
def filterBlankTree (tree : GTree) : GTree :=
  tree.map (fun f => ⟨f.name, f.lines.filter (fun l => !l.isEmpty)⟩)

/-! ### Commits, the repository object store, and `RevList`

Commits are the only objects modelled (the reachable sets computed by the
backend also contain trees and blobs, but `RevList` filters everything that
is not a commit through `r.CommitObject`).  Hashes are modelled as `Nat`,
committer timestamps as `Int` Unix seconds. -/

structure Commit where
  hash : Nat
  parents : List Nat
  time : Int
  tree : GTree
  authorEmail : String
  deriving DecidableEq

/-- An in-memory object store: the list of commits of a repository. -/
abbrev Repo := List Commit

/-- Model of `r.CommitObject(h)`: the first commit of the store with the
given hash, or `none` (the Go call returns an error, and `RevList` skips
such hashes with `continue`). -/
def lookupCommit (repo : Repo) (h : Nat) : Option Commit :=
  repo.find? (fun c => c.hash = h)

/-- Parent hashes of an object, empty for hashes not in the store. -/
def parentsOf (repo : Repo) (h : Nat) : List Nat :=
  match lookupCommit repo h with
  | none => []
  | some c => c.parents

/-- One expansion step of the reachability traversal: add the parents of
every hash currently in the set. -/
def reachStep (repo : Repo) (s : List Nat) : List Nat :=
  (s ++ s.flatMap (parentsOf repo)).dedup

/-- Iterated expansion. -/
def reachIter (repo : Repo) : Nat → List Nat → List Nat
  | 0, s => s
  | n + 1, s => reachIter repo n (reachStep repo s)

/-- All hashes reachable from the start hashes by following parent edges;
`repo.length` expansion steps saturate the finite store. -/
def reachableObjects (repo : Repo) (starts : List Nat) : List Nat :=
  reachIter repo repo.length starts.dedup

/-- Modelled from the backend contract of `revlist.Objects(storer, starts,
ignore)` (go-git `plumbing/revlist`, an external collaborator; spec section
4.2): the objects reachable from `starts`, excluding every object reachable
from the `ignore` list. -/
def revlistObjects (repo : Repo) (starts : List Nat) (ignore : List Nat) : List Nat :=
  (reachableObjects repo starts).filter
    (fun h => !(reachableObjects repo ignore).contains h)

/-- The ordering used at gitfuncs.go:373: the comparator
`commits[i].Committer.When.Unix() > commits[j].Committer.When.Unix()` sorts
most-recent-first, i.e. the resulting list is sorted by this relation. -/
def committerTimeGE (c d : Commit) : Prop := d.time ≤ c.time

instance : DecidableRel committerTimeGE :=
  fun c d => inferInstanceAs (Decidable (d.time ≤ c.time))

/-- The commit-collection and sort stage of `RevList` (gitfuncs.go:365-373)
applied to a backend-returned hash list `ref2hist`: resolve each hash to a
commit (hashes that are no commit hit the `continue` branch and are
dropped), then sort by committer timestamp descending with the comparator
of gitfuncs.go:373.  The backend's `revlist.Objects` materialises its
result set by iterating a Go map, so the ORDER of `ref2hist` is not
specified and can differ between two runs on the same repository; this
function takes that enumeration order as an explicit parameter so that
order-sensitive properties quantify over every admissible enumeration.
Go's `sort.Slice` is an unstable comparison sort; it is modelled by
`List.insertionSort` over the same ordering (both return a sorted
permutation of their input; neither fixes the relative order of
equal-timestamp commits independently of the input order). -/
def revListFromHist (repo : Repo) (ref2hist : List Nat) : List Commit :=
  List.insertionSort committerTimeGE (ref2hist.filterMap (lookupCommit repo))

/-- Model of `RevList` (gitfuncs.go:352-377): walk the objects reachable
from `endCommit`, then the objects reachable from `beginCommit` with the
first set as ignore list, keep the hashes that resolve to commits, and sort
by committer timestamp descending.  The model fixes one admissible
enumeration of the reachable-set difference (the order `revlistObjects`
happens to produce); the set of returned commits and their sortedness are
independent of that choice, but the relative order of equal-timestamp
commits is not (see `revListFromHist`). -/
def RevList (repo : Repo) (beginCommit endCommit : Nat) : List Commit :=
  let ref1hist := revlistObjects repo [endCommit] []
  let ref2hist := revlistObjects repo [beginCommit] ref1hist
  revListFromHist repo ref2hist

/-- Model of `tree.File(path)`: the file of the tree with the given name, or
`none` (the Go call returns an error for a missing path, and
`GetDistinctAuthorsEMailIds` skips such commits with `continue`). -/
def treeFile (tree : GTree) (path : String) : Option GFile :=
  tree.find? (fun f => f.name = path)

/-- Modelled from the spec: `helper.UniqueElements` (package `helper`, not
under src/) deduplicates a list preserving first-seen order (spec section
4.6: "Deduplication preserves first-seen order").  `seen` accumulates the
values already emitted. -/
def uniqueAux : List String → List String → List String
  | [], _ => []
  | x :: xs, seen =>
    if x ∈ seen then uniqueAux xs seen else x :: uniqueAux xs (x :: seen)

/-- Modelled from the spec: `helper.UniqueElements`, see `uniqueAux`. -/
def uniqueElements (l : List String) : List String := uniqueAux l []

/-- Model of `GetDistinctAuthorsEMailIds` (gitfuncs.go:379-401): enumerate
the range with `RevList`, keep the author email of every commit whose tree
contains `filePath` (a missing file hits the `continue` branch), and
deduplicate.  The returned Go error is the (nil) error of the enclosing
scope — the `err` assigned inside the loop is block-scoped — so the
function is modelled as total. -/
def GetDistinctAuthorsEMailIds (repo : Repo) (beginCommit endCommit : Nat)
    (filePath : String) : List String :=
  uniqueElements
    ((RevList repo beginCommit endCommit).filterMap (fun c =>
      if (treeFile c.tree filePath).isSome then some c.authorEmail else none))

/-! ### The `metrics` package -/

/-- One entry of `patch.Stats()`: per-file addition/deletion counts computed
by the backend. -/
structure Stat where
  name : String
  addition : Nat
  deletion : Nat
  deriving DecidableEq

/-- The stats loop of `CalculateDiffMetricsWithWhitespace`
(gitfuncs.go:467-472): every entry whose name matches overwrites the
insertion/deletion pair; absent a match both stay `0`. -/
def statsInsDel (diffStats : List Stat) (filePath : String) : Nat × Nat :=
  diffStats.foldl
    (fun acc v => if v.name = filePath then (v.addition, v.deletion) else acc)
    (0, 0)

structure FileDiffMetrics where
  insertions : Nat
  deletions : Nat
  linesBefore : Nat
  linesAfter : Nat
  file : String
  newFile : Bool
  deleteFile : Bool
  deriving DecidableEq

/-- Model of `CalculateDiffMetricsWithWhitespace` (gitfuncs.go:455-487).
The backend-derived inputs (`patch.Stats()`, the commit tree, the parent
tree) are parameters.  The function has no error channel: a path absent
from the stats simply leaves insertions and deletions at `0`. -/
def CalculateDiffMetricsWithWhitespace (diffStats : List Stat)
    (tree parentTree : GTree) (filePath : String) : FileDiffMetrics :=
  let sd := statsInsDel diffStats filePath
  let lb := fileLOCFromTree parentTree filePath
  let la := fileLOCFromTree tree filePath
  ⟨sd.1, sd.2, lb, la, filePath,
    decide (lb = 0 ∧ la ≠ 0), decide (lb ≠ 0 ∧ la = 0)⟩

/-! ### The textual whitespace-excluded calculator

`CalculateDiffMetricsWhitespaceExcluded` re-parses the rendered patch text
(`patch.String()`) instead of using structured chunks; the rendered text is
a backend-produced input here. -/

/-- First index of `s` at which `sep` occurs as a prefix, if any. -/
def findSub (sep s : List Char) : Option Nat :=
  (List.range (s.length + 1)).find? (fun i => sep.isPrefixOf (s.drop i))

/-- Fuelled worker for `splitOnSub`; every step consumes at least
`sep.length ≥ 1` characters, so `s.length + 1` fuel suffices. -/
def splitOnSubGo (sep : List Char) : Nat → List Char → List (List Char)
  | 0, s => [s]
  | fuel + 1, s =>
    match findSub sep s with
    | none => [s]
    | some i => s.take i :: splitOnSubGo sep fuel (s.drop (i + sep.length))

/-- Model of Go `strings.Split(s, sep)` for a non-empty separator (the
source never splits on an empty separator): the segments of `s` between
consecutive non-overlapping occurrences of `sep`. -/
def splitOnSub (sep s : List Char) : List (List Char) :=
  if sep.isEmpty then [s] else splitOnSubGo sep (s.length + 1) s

/-- ASCII whitespace, as recognised by Go `strings.TrimSpace` on ASCII
input (the characters relevant to diff text). -/
def isSpaceChar (c : Char) : Bool :=
  c = ' ' || c = '\t' || c = '\n' || c = '\x0b' || c = '\x0c' || c = '\r'

/-- Model of Go `strings.TrimSpace`: drop whitespace from both ends. -/
def trimSpace (l : List Char) : List Char :=
  ((l.dropWhile isSpaceChar).reverse.dropWhile isSpaceChar).reverse

/-- The insertion-counting predicate of gitfuncs.go:510: after trimming,
the line starts with `+` but is not exactly `+`. -/
def isInsertionLine (line : List Char) : Bool :=
  ['+'].isPrefixOf (trimSpace line) && !(trimSpace line == ['+'])

/-- The deletion-counting predicate of gitfuncs.go:513: after trimming,
the line starts with `-` but is not exactly `-`. -/
def isDeletionLine (line : List Char) : Bool :=
  ['-'].isPrefixOf (trimSpace line) && !(trimSpace line == ['-'])

/-- Failure modes of `CalculateDiffMetricsWhitespaceExcluded`: the explicit
error return at gitfuncs.go:498, and the runtime panic of the unguarded
index `strings.Split(fileDiffTexts[1], "+++")[1]` at gitfuncs.go:500 when
the marker is absent. -/
inductive CalcErr where
  | fileNotFound : String → CalcErr
  | indexPanic : CalcErr
  deriving DecidableEq

/-- Model of `CalculateDiffMetricsWhitespaceExcluded` (gitfuncs.go:489-533).
`patchText` is the backend's `patch.String()`.  The function slices the
rendered text at `"diff --git a/" ++ filePath`, then after the first
`"+++"`, then before the next `"diff --git"`, and counts `+`/`-` lines of
the slice; line counts come from the whitespace-excluded tree counters. -/
def CalculateDiffMetricsWhitespaceExcluded (patchText : List Char)
    (tree parentTree : GTree) (filePath : String) :
    Except CalcErr FileDiffMetrics :=
  let fileDiffTexts := splitOnSub (("diff --git a/" ++ filePath).data) patchText
  if fileDiffTexts.length < 2 then
    Except.error (CalcErr.fileNotFound
      ("File: " ++ filePath ++ " not found in the given commitHash"))
  else
    let parts := splitOnSub ("+++".data) (fileDiffTexts.getD 1 [])
    if parts.length < 2 then Except.error CalcErr.indexPanic
    else
      let fileDiff := (splitOnSub ("diff --git".data) (parts.getD 1 [])).getD 0 []
      let lines := splitOnNl fileDiff
      let lb := fileLOCFromTreeWhitespaceExcluded parentTree filePath
      let la := fileLOCFromTreeWhitespaceExcluded tree filePath
      Except.ok
        ⟨lines.countP isInsertionLine, lines.countP isDeletionLine, lb, la,
          filePath, decide (lb = 0 ∧ la ≠ 0), decide (lb ≠ 0 ∧ la = 0)⟩

/-! ### Concrete instances used by counterexamples and witnesses -/

def pathA : String := "a.txt"

def pathOther : String := "other.txt"

def emailX : String := "x@y"

def emailZ : String := "z@w"

/-- A tree whose single file has one whitespace-only (but not empty) line. -/
def treeWS : GTree := [⟨pathA, [[' ']]⟩]

/-- A tree with one nonempty line, one empty line, one whitespace-only line. -/
def treeMix : GTree := [⟨pathA, [['x'], [], [' ']]⟩]

/-- Root commit: `a.txt` with one line. -/
def exC1 : Commit := ⟨1, [], 0, [⟨pathA, [['x']]⟩], emailX⟩

/-- Direct child of `exC1`: `a.txt` with two lines. -/
def exC2 : Commit := ⟨2, [1], 1, [⟨pathA, [['x'], ['y']]⟩], emailZ⟩

def exRepo : Repo := [exC1, exC2]

/-- Per-file stats mentioning only `other.txt`. -/
def exStats : List Stat := [⟨pathOther, 5, 2⟩]

def exParentTree : GTree := [⟨pathA, [['a'], ['b']]⟩]

def exTree : GTree := [⟨pathA, [['a'], ['b'], ['c']]⟩]

/-- Chunks of a patch whose Equal and Delete chunks partition the three
lines of `exParentTree`+1: one kept line, two deleted lines. -/
def exChunks : List Chunk :=
  [⟨ChunkType.Equal, ['a', '\n']⟩, ⟨ChunkType.Delete, ['b', '\n', 'c', '\n']⟩]

/-- A Delete chunk with one nonempty and one empty line. -/
def exChunksMix : List Chunk := [⟨ChunkType.Delete, ['x', '\n', '\n']⟩]

/-- A rendered patch text in which `a.txt` appears with one inserted line. -/
def exPatchText : List Char :=
  ("diff --git a/a.txt b/a.txt\n--- a/a.txt\n+++ b/a.txt\n+x\n").data

/-- First of two root commits sharing one committer timestamp. -/
def tieC2 : Commit := ⟨2, [], 7, [⟨pathA, [['x']]⟩], emailX⟩

/-- Second of two root commits sharing one committer timestamp. -/
def tieC3 : Commit := ⟨3, [], 7, [⟨pathA, [['y']]⟩], emailZ⟩

/-- A repository whose two commits tie on committer timestamp. -/
def repoTie : Repo := [tieC2, tieC3]

/-! ### Helper lemmas about chunk processing -/

theorem chunkNumLinesT_eq {content : List Char} {n : Nat}
    (h : chunkNumLines content = some n) : chunkNumLinesT content = n := by
  simp [chunkNumLinesT, h]

theorem chunkNumLinesT_le (content : List Char) :
    chunkNumLinesT content ≤ (splitOnNl content).length := by
  unfold chunkNumLinesT chunkNumLines
  match content.getLast? with
  | none => simp
  | some c =>
    by_cases hc : c = '\n' <;> simp [hc]

theorem chunkLines_length (content : List Char) :
    (chunkLines content).length = chunkNumLinesT content := by
  simp only [chunkLines, List.length_take]
  exact Nat.min_eq_left (chunkNumLinesT_le content)

/-- Soundness invariant of the inclusive chunk walk: the final counter never
decreases, every recorded deleted line number lies strictly between the
start counter and the final counter, and the recorded list is strictly
increasing. -/
theorem deletedChunks_sound (chunks : List Chunk) : ∀ (counter : Nat)
    (l : List Nat) (fc : Nat),
    deletedLineNumbersChunks chunks counter = some (l, fc) →
    counter ≤ fc ∧ (∀ m ∈ l, counter < m ∧ m ≤ fc) ∧ List.Pairwise (· < ·) l := by
  induction chunks with
  | nil =>
    intro counter l fc h
    simp [deletedLineNumbersChunks] at h
    obtain ⟨rfl, rfl⟩ := h
    simp
  | cons ch rest ih =>
    intro counter l fc h
    obtain ⟨ty, content⟩ := ch
    cases ty with
    | Equal =>
      simp only [deletedLineNumbersChunks] at h
      cases hn : chunkNumLines content with
      | none => rw [hn] at h; simp at h
      | some n =>
        rw [hn] at h
        simp only at h
        obtain ⟨h1, h2, h3⟩ := ih (counter + n) l fc h
        refine ⟨by omega, fun m hm => ?_, h3⟩
        have := h2 m hm
        omega
    | Add =>
      simp only [deletedLineNumbersChunks] at h
      exact ih counter l fc h
    | Delete =>
      simp only [deletedLineNumbersChunks] at h
      cases hn : chunkNumLines content with
      | none => rw [hn] at h; simp at h
      | some n =>
        rw [hn] at h
        simp only at h
        cases hr : deletedLineNumbersChunks rest (counter + n) with
        | none => rw [hr] at h; simp at h
        | some p =>
          rw [hr] at h
          obtain ⟨l₂, fc₂⟩ := p
          simp only [Option.some.injEq, Prod.mk.injEq] at h
          obtain ⟨h4, h5⟩ := h
          subst h4
          subst h5
          obtain ⟨h1, h2, h3⟩ := ih (counter + n) l₂ fc₂ hr
          refine ⟨by omega, ?_, ?_⟩
          · intro m hm
            rcases List.mem_append.mp hm with hmf | hms
            · obtain ⟨i, hi, rfl⟩ := List.mem_map.mp hmf
              have hi2 : i < n := List.mem_range.mp hi
              omega
            · have := h2 m hms
              omega
          · rw [List.pairwise_append]
            refine ⟨(List.pairwise_lt_range n).map _ (fun a b hab => by omega), h3, ?_⟩
            intro a ha b hb
            obtain ⟨i, hi, rfl⟩ := List.mem_map.mp ha
            have hi2 : i < n := List.mem_range.mp hi
            have := h2 b hb
            omega

/-- The final counter of the inclusive chunk walk is the start counter plus
the total Equal/Delete line count. -/
theorem deletedChunks_final_counter (chunks : List Chunk) : ∀ (counter : Nat)
    (l : List Nat) (fc : Nat),
    deletedLineNumbersChunks chunks counter = some (l, fc) →
    fc = counter + chunksBeforeLineCount chunks := by
  induction chunks with
  | nil =>
    intro counter l fc h
    simp [deletedLineNumbersChunks] at h
    simp [chunksBeforeLineCount, h.2]
  | cons ch rest ih =>
    intro counter l fc h
    obtain ⟨ty, content⟩ := ch
    cases ty with
    | Equal =>
      simp only [deletedLineNumbersChunks] at h
      cases hn : chunkNumLines content with
      | none => rw [hn] at h; simp at h
      | some n =>
        rw [hn] at h
        simp only at h
        have := ih (counter + n) l fc h
        simp [chunksBeforeLineCount, chunkNumLinesT_eq hn]
        omega
    | Add =>
      simp only [deletedLineNumbersChunks] at h
      have := ih counter l fc h
      simpa [chunksBeforeLineCount] using this
    | Delete =>
      simp only [deletedLineNumbersChunks] at h
      cases hn : chunkNumLines content with
      | none => rw [hn] at h; simp at h
      | some n =>
        rw [hn] at h
        simp only at h
        cases hr : deletedLineNumbersChunks rest (counter + n) with
        | none => rw [hr] at h; simp at h
        | some p =>
          rw [hr] at h
          obtain ⟨l₂, fc₂⟩ := p
          simp only [Option.some.injEq, Prod.mk.injEq] at h
          have := ih (counter + n) l₂ fc₂ hr
          simp [chunksBeforeLineCount, chunkNumLinesT_eq hn]
          omega

theorem filterMap_if_eq_map_filter (l : List Nat) (g : Nat → Bool) (f : Nat → Nat) :
    l.filterMap (fun i => if g i then some (f i) else none) = (l.filter g).map f := by
  induction l with
  | nil => simp
  | cons x xs ih =>
    by_cases hg : g x <;> simp [List.filterMap_cons, List.filter_cons, hg, ih]

theorem getD_pre_chunk (pre ls rest : List (List Char)) (i : Nat)
    (hi : i < ls.length) :
    (pre ++ (ls ++ rest)).getD (pre.length + i) [] = ls.getD i [] := by
  simp only [List.getD_eq_getElem?_getD]
  rw [List.getElem?_append_right (by omega), Nat.add_sub_cancel_left,
    List.getElem?_append_left hi]

theorem chunkLines_getD (content : List Char) (i : Nat)
    (hi : i < chunkNumLinesT content) :
    (chunkLines content).getD i [] = (splitOnNl content).getD i [] := by
  simp [chunkLines, List.getD_eq_getElem?_getD, List.getElem?_take_of_lt hi]

/-- The whitespace-excluded chunk walk records exactly the inclusive walk's
deleted line numbers whose corresponding before-file line is not the
literal empty string (and both walks agree on the final counter).  `pre` is
the list of before-file lines consumed before the remaining chunks. -/
theorem deletedChunksWE_eq_filter (chunks : List Chunk) : ∀ (pre : List (List Char))
    (p q : List Nat × Nat),
    deletedLineNumbersChunksWE chunks pre.length = some p →
    deletedLineNumbersChunks chunks pre.length = some q →
    p.1 = q.1.filter (fun m => !lineBlankAt (pre ++ beforeLinesOf chunks) m) ∧
    p.2 = q.2 := by
  induction chunks with
  | nil =>
    intro pre p q hWE hIn
    obtain ⟨l₁, c₁⟩ := p
    obtain ⟨l₂, c₂⟩ := q
    simp only [deletedLineNumbersChunksWE, Option.some.injEq, Prod.mk.injEq] at hWE
    simp only [deletedLineNumbersChunks, Option.some.injEq, Prod.mk.injEq] at hIn
    obtain ⟨h1, h2⟩ := hWE
    obtain ⟨h3, h4⟩ := hIn
    subst h1; subst h2; subst h3; subst h4
    simp
  | cons ch rest ih =>
    intro pre p q hWE hIn
    obtain ⟨ty, content⟩ := ch
    cases ty with
    | Add =>
      simp only [deletedLineNumbersChunksWE] at hWE
      simp only [deletedLineNumbersChunks] at hIn
      have := ih pre p q hWE hIn
      simpa [beforeLinesOf] using this
    | Equal =>
      simp only [deletedLineNumbersChunksWE] at hWE
      simp only [deletedLineNumbersChunks] at hIn
      cases hn : chunkNumLines content with
      | none => rw [hn] at hWE; simp at hWE
      | some n =>
        rw [hn] at hWE hIn
        simp only at hWE hIn
        have hlen : (pre ++ chunkLines content).length = pre.length + n := by
          simp [chunkLines_length, chunkNumLinesT_eq hn]
        rw [← hlen] at hWE hIn
        have hrec := ih (pre ++ chunkLines content) p q hWE hIn
        have hassoc : (pre ++ chunkLines content) ++ beforeLinesOf rest =
            pre ++ beforeLinesOf (⟨ChunkType.Equal, content⟩ :: rest) := by
          simp [beforeLinesOf, List.append_assoc]
        rw [hassoc] at hrec
        exact hrec
    | Delete =>
      simp only [deletedLineNumbersChunksWE] at hWE
      simp only [deletedLineNumbersChunks] at hIn
      cases hn : chunkNumLines content with
      | none => rw [hn] at hWE; simp at hWE
      | some n =>
        rw [hn] at hWE hIn
        simp only at hWE hIn
        cases hrWE : deletedLineNumbersChunksWE rest (pre.length + n) with
        | none => rw [hrWE] at hWE; simp at hWE
        | some pr =>
        cases hrIn : deletedLineNumbersChunks rest (pre.length + n) with
        | none => rw [hrIn] at hIn; simp at hIn
        | some qr =>
        rw [hrWE] at hWE
        rw [hrIn] at hIn
        obtain ⟨l₁', c₁'⟩ := pr
        obtain ⟨l₂', c₂'⟩ := qr
        obtain ⟨l₁, c₁⟩ := p
        obtain ⟨l₂, c₂⟩ := q
        simp only [Option.some.injEq, Prod.mk.injEq] at hWE hIn
        obtain ⟨hW1, hW2⟩ := hWE
        obtain ⟨hI1, hI2⟩ := hIn
        subst hW1; subst hW2; subst hI1; subst hI2
        have hlen : (pre ++ chunkLines content).length = pre.length + n := by
          simp [chunkLines_length, chunkNumLinesT_eq hn]
        have hrec := ih (pre ++ chunkLines content) (l₁', c₁') (l₂', c₂')
          (by rw [hlen]; exact hrWE) (by rw [hlen]; exact hrIn)
        have hbl : beforeLinesOf (⟨ChunkType.Delete, content⟩ :: rest) =
            chunkLines content ++ beforeLinesOf rest := by
          simp [beforeLinesOf]
        have hassoc : (pre ++ chunkLines content) ++ beforeLinesOf rest =
            pre ++ beforeLinesOf (⟨ChunkType.Delete, content⟩ :: rest) := by
          rw [hbl, List.append_assoc]
        rw [hassoc] at hrec
        have hclen : (chunkLines content).length = n := by
          rw [chunkLines_length, chunkNumLinesT_eq hn]
        refine ⟨?_, hrec.2⟩
        rw [List.filter_append]
        have hpart : ((List.range n).filterMap (fun i =>
            if (splitOnNl content).getD i [] = [] then none
            else some (pre.length + i + 1))) =
            ((List.range n).map (fun i => pre.length + i + 1)).filter
              (fun m => !lineBlankAt
                (pre ++ beforeLinesOf (⟨ChunkType.Delete, content⟩ :: rest)) m) := by
          have hfun : (fun i => if (splitOnNl content).getD i [] = [] then none
              else some (pre.length + i + 1)) =
              (fun i => if !((splitOnNl content).getD i []).isEmpty
                then some (pre.length + i + 1) else none) := by
            funext i
            by_cases hx : (splitOnNl content).getD i [] = [] <;>
              simp [hx, List.isEmpty_iff]
          rw [hfun, filterMap_if_eq_map_filter, List.filter_map]
          refine congrArg _ (List.filter_congr ?_)
          intro i hi
          have hi2 : i < n := List.mem_range.mp hi
          simp only [Function.comp, lineBlankAt, hbl, Nat.add_sub_cancel]
          rw [getD_pre_chunk pre (chunkLines content) (beforeLinesOf rest) i
            (by omega), chunkLines_getD content i (by rw [chunkNumLinesT_eq hn]; omega)]
        dsimp only at hrec ⊢
        rw [hpart, hrec.1]

theorem fileLOC_foldl_no_match (tree : GTree) (path : String) :
    ∀ (acc : Nat), (∀ f ∈ tree, f.name ≠ path) →
    tree.foldl (fun loc f => if f.name = path then f.lines.length else loc) acc
      = acc := by
  induction tree with
  | nil => intro acc _; rfl
  | cons f rest ih =>
    intro acc h
    have hf := h f (by simp)
    simp only [List.foldl_cons, if_neg hf]
    exact ih acc (fun g hg => h g (by simp [hg]))

theorem fileLOCWE_foldl_no_match (tree : GTree) (path : String) :
    ∀ (acc : Nat), (∀ f ∈ tree, f.name ≠ path) →
    tree.foldl
      (fun loc f =>
        if f.name = path then loc + f.lines.countP (fun l => !l.isEmpty)
        else loc) acc = acc := by
  induction tree with
  | nil => intro acc _; rfl
  | cons f rest ih =>
    intro acc h
    have hf := h f (by simp)
    simp only [List.foldl_cons, if_neg hf]
    exact ih acc (fun g hg => h g (by simp [hg]))

/-- Over a tree with distinct file names, the whitespace-excluded count of a
file never exceeds the inclusive count. -/
theorem locWE_le_loc (tree : GTree) (path : String)
    (hnd : (tree.map GFile.name).Nodup) :
    fileLOCFromTreeWhitespaceExcluded tree path ≤ fileLOCFromTree tree path := by
  induction tree with
  | nil => simp [fileLOCFromTree, fileLOCFromTreeWhitespaceExcluded]
  | cons f rest ih =>
    simp only [List.map_cons, List.nodup_cons] at hnd
    obtain ⟨hf, hrest⟩ := hnd
    by_cases hname : f.name = path
    · have hnom : ∀ g ∈ rest, g.name ≠ path := by
        intro g hg hq
        exact hf (hname ▸ hq ▸ List.mem_map_of_mem GFile.name hg)
      unfold fileLOCFromTree fileLOCFromTreeWhitespaceExcluded
      simp only [List.foldl_cons, if_pos hname]
      rw [fileLOC_foldl_no_match rest path _ hnom,
        fileLOCWE_foldl_no_match rest path _ hnom]
      simpa using List.countP_le_length _
    · unfold fileLOCFromTree fileLOCFromTreeWhitespaceExcluded
      simp only [List.foldl_cons, if_neg hname]
      exact ih hrest

/-- Over a tree with distinct file names, the whitespace-excluded count of a
file equals the inclusive count taken after removing exactly the literally
empty lines. -/
theorem locWE_eq_filterBlank (tree : GTree) (path : String)
    (hnd : (tree.map GFile.name).Nodup) :
    fileLOCFromTreeWhitespaceExcluded tree path =
      fileLOCFromTree (filterBlankTree tree) path := by
  induction tree with
  | nil => rfl
  | cons f rest ih =>
    simp only [List.map_cons, List.nodup_cons] at hnd
    obtain ⟨hf, hrest⟩ := hnd
    by_cases hname : f.name = path
    · have hnom : ∀ g ∈ rest, g.name ≠ path := by
        intro g hg hq
        exact hf (hname ▸ hq ▸ List.mem_map_of_mem GFile.name hg)
      have hnom2 : ∀ g ∈ filterBlankTree rest, g.name ≠ path := by
        intro g hg
        obtain ⟨g₀, hg₀, rfl⟩ := List.mem_map.mp hg
        exact hnom g₀ hg₀
      have hcons : filterBlankTree (f :: rest) =
          ⟨f.name, f.lines.filter (fun l => !l.isEmpty)⟩ :: filterBlankTree rest := rfl
      unfold fileLOCFromTreeWhitespaceExcluded fileLOCFromTree
      rw [hcons]
      simp only [List.foldl_cons]
      rw [if_pos hname, if_pos hname,
        fileLOC_foldl_no_match (filterBlankTree rest) path _ hnom2,
        fileLOCWE_foldl_no_match rest path _ hnom]
      simp [List.countP_eq_length_filter]
    · have hcons : filterBlankTree (f :: rest) =
          ⟨f.name, f.lines.filter (fun l => !l.isEmpty)⟩ :: filterBlankTree rest := rfl
      unfold fileLOCFromTreeWhitespaceExcluded fileLOCFromTree
      rw [hcons]
      simp only [List.foldl_cons]
      rw [if_neg hname, if_neg hname]
      exact ih hrest

theorem uniqueAux_nodup (l : List String) : ∀ (seen : List String),
    (uniqueAux l seen).Nodup ∧ ∀ x ∈ uniqueAux l seen, x ∉ seen := by
  induction l with
  | nil => intro seen; simp [uniqueAux]
  | cons x xs ih =>
    intro seen
    by_cases hx : x ∈ seen
    · simp only [uniqueAux, if_pos hx]
      exact ih seen
    · simp only [uniqueAux, if_neg hx]
      obtain ⟨hnd, hmem⟩ := ih (x :: seen)
      refine ⟨List.nodup_cons.mpr ⟨?_, hnd⟩, ?_⟩
      · intro hxin
        exact (hmem x hxin) (by simp)
      · intro y hy
        rcases List.mem_cons.mp hy with rfl | hy2
        · exact hx
        · intro hyseen
          exact (hmem y hy2) (by simp [hyseen])

theorem uniqueAux_subset (l : List String) : ∀ (seen : List String),
    ∀ x ∈ uniqueAux l seen, x ∈ l := by
  induction l with
  | nil => intro seen x hx; simp [uniqueAux] at hx
  | cons y ys ih =>
    intro seen x hx
    by_cases hy : y ∈ seen
    · simp only [uniqueAux, if_pos hy] at hx
      exact List.mem_cons_of_mem y (ih seen x hx)
    · simp only [uniqueAux, if_neg hy] at hx
      rcases List.mem_cons.mp hx with rfl | hx2
      · simp
      · exact List.mem_cons_of_mem y (ih (y :: seen) x hx2)

theorem statsInsDel_foldl_no_match (diffStats : List Stat) (filePath : String) :
    ∀ (acc : Nat × Nat), (∀ s ∈ diffStats, s.name ≠ filePath) →
    diffStats.foldl
      (fun acc v => if v.name = filePath then (v.addition, v.deletion) else acc)
      acc = acc := by
  induction diffStats with
  | nil => intro acc _; rfl
  | cons s rest ih =>
    intro acc h
    have hs := h s (by simp)
    simp only [List.foldl_cons, if_neg hs]
    exact ih acc (fun t ht => h t (by simp [ht]))

instance : IsTotal Commit committerTimeGE :=
  ⟨fun a b => le_total b.time a.time⟩

instance : IsTrans Commit committerTimeGE :=
  ⟨fun _ _ _ hab hbc => le_trans hbc hab⟩

/-! ### Claim theorems -/

/-- C1: evaluation of `RevList` showing the claim's range direction is
reversed in the code.  With commit 2 the direct child of commit 1, the
range (beginCommit = 1, endCommit = 2) returns the empty list instead of
the claimed singleton of the end commit; the code computes
`reachable(beginCommit) \ reachable(endCommit)` (so the swapped call
(2, 1) returns exactly commit 2), while the (A, A) range is empty as
claimed. -/
theorem revList_reverses_range_direction :
    RevList exRepo 1 2 = [] ∧ RevList exRepo 1 1 = [] ∧
    RevList exRepo 2 1 = [exC2] :=
  ⟨rfl, rfl, rfl⟩

/-- C2: `CalculateDiffMetricsWithWhitespace`, evaluated at a path that does
not appear in the patch's per-file stats, returns a metrics value with zero
insertions and deletions; its signature has no error channel at all, so no
`FileNotInDiff` failure can occur. -/
theorem calcWithWhitespace_missing_path_returns_value :
    CalculateDiffMetricsWithWhitespace exStats exTree exParentTree pathA =
      ⟨0, 0, 2, 3, pathA, false, false⟩ :=
  rfl

/-- C3 counterexample: a line consisting of a single space is empty after
trimming (third conjunct), yet the whitespace-exclusive line count counts
it (first conjunct: count 1, the claim requires 0) and the
whitespace-exclusive deleted-line walk records it (second conjunct: line 1
is recorded, the claim requires exclusion). -/
theorem whitespace_only_line_counted :
    fileLOCFromTreeWhitespaceExcluded treeWS pathA = 1 ∧
    deletedLineNumbersChunksWE [⟨ChunkType.Delete, [' ', '\n']⟩] 0 =
      some ([1], 1) ∧
    trimSpace [' '] = [] :=
  ⟨rfl, rfl, rfl⟩

/-- C3 (amended): in whitespace-exclusive mode the textual
insertion/deletion counters do exclude every line that is empty after
trimming (first two conjuncts), but a line is excluded from the
lines-before/lines-after counts and from the deleted-line-number list
exactly when it is the literal empty string (not: empty after trimming):
the whitespace-exclusive count equals the inclusive count of the tree with
exactly the literally-empty lines removed, and the whitespace-exclusive
deleted-line list is the inclusive list restricted to the deleted lines
that are not literally empty. -/
theorem whitespace_exclusion_is_literal_emptiness
    (tree : GTree) (path : String) (chunks : List Chunk) (p q : List Nat × Nat)
    (line : List Char)
    (hline : trimSpace line = [])
    (hnd : (tree.map GFile.name).Nodup)
    (hWE : deletedLineNumbersChunksWE chunks 0 = some p)
    (hIn : deletedLineNumbersChunks chunks 0 = some q) :
    isInsertionLine line = false ∧ isDeletionLine line = false ∧
    fileLOCFromTreeWhitespaceExcluded tree path =
      fileLOCFromTree (filterBlankTree tree) path ∧
    p.1 = q.1.filter (fun m => !lineBlankAt (beforeLinesOf chunks) m) := by
  refine ⟨by simp [isInsertionLine, hline], by simp [isDeletionLine, hline],
    locWE_eq_filterBlank tree path hnd, ?_⟩
  have hrel := deletedChunksWE_eq_filter chunks [] p q
    (by simpa using hWE) (by simpa using hIn)
  simpa using hrel.1

/-- C3 witness: concrete instance of the amended claim, on a
whitespace-only diff line, a file with one code line, one empty line and
one whitespace-only line, and a Delete chunk with one code line and one
empty line. -/
theorem whitespace_exclusion_is_literal_emptiness_witness :
    isInsertionLine [' ', '\t'] = false ∧ isDeletionLine [' ', '\t'] = false ∧
    fileLOCFromTreeWhitespaceExcluded treeMix pathA =
      fileLOCFromTree (filterBlankTree treeMix) pathA ∧
    ([1] : List Nat) = ([1, 2] : List Nat).filter
      (fun m => !lineBlankAt (beforeLinesOf exChunksMix) m) :=
  whitespace_exclusion_is_literal_emptiness treeMix pathA exChunksMix
    ([1], 2) ([1, 2], 2) [' ', '\t'] rfl (by decide) rfl rfl

/-- C4: a chunk whose content is the empty string makes the chunk walk of
`DeletedLineNumbers` fail (the source evaluates
`chunk.Content()[len(chunk.Content())-1]`, an index-out-of-range panic on
empty content), both for an Equal and for a Delete chunk — it does not
yield zero lines. -/
theorem empty_chunk_content_panics :
    deletedLineNumbersChunks [⟨ChunkType.Equal, []⟩] 0 = none ∧
    deletedLineNumbersChunks [⟨ChunkType.Delete, []⟩] 0 = none :=
  ⟨rfl, rfl⟩

/-- C5: when the Equal and Delete chunks of a file patch partition the
before file (their total line count equals the file's lines-before count in
the parent tree), the deleted line numbers recorded by the chunk walk are
strictly increasing (in particular within each single Delete chunk) and
never exceed the lines-before count. -/
theorem deleted_lines_increasing_and_bounded
    (parentTree : GTree) (path : String) (chunks : List Chunk)
    (l : List Nat) (fc : Nat)
    (h1 : deletedLineNumbersChunks chunks 0 = some (l, fc))
    (h2 : chunksBeforeLineCount chunks = fileLOCFromTree parentTree path) :
    List.Pairwise (· < ·) l ∧ ∀ m ∈ l, m ≤ fileLOCFromTree parentTree path := by
  obtain ⟨hc, hmem, hpw⟩ := deletedChunks_sound chunks 0 l fc h1
  have hfc := deletedChunks_final_counter chunks 0 l fc h1
  refine ⟨hpw, fun m hm => ?_⟩
  have := hmem m hm
  omega

/-- C5 witness: one kept line followed by two deleted lines of a
three-line file. -/
theorem deleted_lines_increasing_and_bounded_witness :
    List.Pairwise (· < ·) ([2, 3] : List Nat) ∧
    ∀ m ∈ ([2, 3] : List Nat), m ≤ fileLOCFromTree exTree pathA :=
  deleted_lines_increasing_and_bounded exTree pathA exChunks [2, 3] 3 rfl rfl

/-- C6: in both calculators the new-file flag holds exactly when
lines-before is zero and lines-after is positive, and the delete-file flag
exactly when lines-before is positive and lines-after is zero — hence both
flags are false in every other case.  For the whitespace-excluded
calculator the property is stated for every run that returns metrics. -/
theorem new_delete_flags_iff
    (diffStats : List Stat) (tree parentTree : GTree) (filePath : String)
    (patchText : List Char) (m : FileDiffMetrics)
    (h : CalculateDiffMetricsWhitespaceExcluded patchText tree parentTree filePath =
      Except.ok m) :
    ((CalculateDiffMetricsWithWhitespace diffStats tree parentTree filePath).newFile = true ↔
      (CalculateDiffMetricsWithWhitespace diffStats tree parentTree filePath).linesBefore = 0 ∧
        0 < (CalculateDiffMetricsWithWhitespace diffStats tree parentTree filePath).linesAfter) ∧
    ((CalculateDiffMetricsWithWhitespace diffStats tree parentTree filePath).deleteFile = true ↔
      0 < (CalculateDiffMetricsWithWhitespace diffStats tree parentTree filePath).linesBefore ∧
        (CalculateDiffMetricsWithWhitespace diffStats tree parentTree filePath).linesAfter = 0) ∧
    (m.newFile = true ↔ m.linesBefore = 0 ∧ 0 < m.linesAfter) ∧
    (m.deleteFile = true ↔ 0 < m.linesBefore ∧ m.linesAfter = 0) := by
  have hws : ∀ lb la : Nat,
      (decide (lb = 0 ∧ la ≠ 0) = true ↔ lb = 0 ∧ 0 < la) ∧
      (decide (lb ≠ 0 ∧ la = 0) = true ↔ 0 < lb ∧ la = 0) := by
    intro lb la
    constructor <;> (rw [decide_eq_true_eq]; omega)
  refine ⟨(hws _ _).1, (hws _ _).2, ?_, ?_⟩ <;>
  · simp only [CalculateDiffMetricsWhitespaceExcluded] at h
    split at h
    · simp at h
    · split at h
      · simp at h
      · injection h with h
        subst h
        first
        | exact (hws _ _).1
        | exact (hws _ _).2

/-- C6 witness: a concrete successful whitespace-excluded run (one inserted
line for `a.txt`) together with the stats-based calculator on the same
trees. -/
theorem new_delete_flags_iff_witness :
    ((CalculateDiffMetricsWithWhitespace exStats exTree exParentTree pathA).newFile = true ↔
      (CalculateDiffMetricsWithWhitespace exStats exTree exParentTree pathA).linesBefore = 0 ∧
        0 < (CalculateDiffMetricsWithWhitespace exStats exTree exParentTree pathA).linesAfter) ∧
    ((CalculateDiffMetricsWithWhitespace exStats exTree exParentTree pathA).deleteFile = true ↔
      0 < (CalculateDiffMetricsWithWhitespace exStats exTree exParentTree pathA).linesBefore ∧
        (CalculateDiffMetricsWithWhitespace exStats exTree exParentTree pathA).linesAfter = 0) ∧
    ((⟨1, 0, 2, 3, pathA, false, false⟩ : FileDiffMetrics).newFile = true ↔
      (⟨1, 0, 2, 3, pathA, false, false⟩ : FileDiffMetrics).linesBefore = 0 ∧
        0 < (⟨1, 0, 2, 3, pathA, false, false⟩ : FileDiffMetrics).linesAfter) ∧
    ((⟨1, 0, 2, 3, pathA, false, false⟩ : FileDiffMetrics).deleteFile = true ↔
      0 < (⟨1, 0, 2, 3, pathA, false, false⟩ : FileDiffMetrics).linesBefore ∧
        (⟨1, 0, 2, 3, pathA, false, false⟩ : FileDiffMetrics).linesAfter = 0) :=
  new_delete_flags_iff exStats exTree exParentTree pathA exPatchText
    ⟨1, 0, 2, 3, pathA, false, false⟩ rfl

/-- C7: the whitespace-excluded line count of a file never exceeds the
inclusive count over the same tree (tree file names are distinct, as in a
git tree), and the whitespace-excluded deleted-line-number list of a chunk
walk is a subset of the inclusive one. -/
theorem whitespace_excluded_le_inclusive
    (tree : GTree) (path : String) (chunks : List Chunk) (p q : List Nat × Nat)
    (hnd : (tree.map GFile.name).Nodup)
    (hWE : deletedLineNumbersChunksWE chunks 0 = some p)
    (hIn : deletedLineNumbersChunks chunks 0 = some q) :
    fileLOCFromTreeWhitespaceExcluded tree path ≤ fileLOCFromTree tree path ∧
    p.1 ⊆ q.1 := by
  refine ⟨locWE_le_loc tree path hnd, ?_⟩
  have hrel := deletedChunksWE_eq_filter chunks [] p q
    (by simpa using hWE) (by simpa using hIn)
  rw [hrel.1]
  exact (List.filter_sublist _).subset

/-- C7 witness. -/
theorem whitespace_excluded_le_inclusive_witness :
    fileLOCFromTreeWhitespaceExcluded treeWS pathA ≤
      fileLOCFromTree treeWS pathA ∧
    ([2, 3] : List Nat) ⊆ [2, 3] :=
  whitespace_excluded_le_inclusive treeWS pathA exChunks ([2, 3], 3)
    ([2, 3], 3) (by decide) rfl rfl

/-- C8: `GetDistinctAuthorsEMailIds` returns a duplicate-free list whose
every element is the author email of some commit of the range whose tree
contains the file; commits whose tree lacks the file are skipped (they
contribute nothing and cause no error — the modelled function is total). -/
theorem distinct_authors_nodup_and_from_range
    (repo : Repo) (b e : Nat) (path : String) (a : String)
    (h : a ∈ GetDistinctAuthorsEMailIds repo b e path) :
    (GetDistinctAuthorsEMailIds repo b e path).Nodup ∧
    ∃ c, c ∈ RevList repo b e ∧ (treeFile c.tree path).isSome = true ∧
      c.authorEmail = a := by
  unfold GetDistinctAuthorsEMailIds uniqueElements at h ⊢
  constructor
  · exact (uniqueAux_nodup _ []).1
  · have hmem := uniqueAux_subset _ [] a h
    obtain ⟨c, hc, hfc⟩ := List.mem_filterMap.mp hmem
    by_cases hsome : (treeFile c.tree path).isSome
    · rw [if_pos hsome] at hfc
      exact ⟨c, hc, hsome, Option.some.inj hfc⟩
    · rw [if_neg hsome] at hfc
      simp at hfc

/-- C8 witness: a two-commit repository in which only commit 2 is in the
range (2, 1) and contains the file. -/
theorem distinct_authors_nodup_and_from_range_witness :
    (GetDistinctAuthorsEMailIds exRepo 2 1 pathA).Nodup ∧
    ∃ c, c ∈ RevList exRepo 2 1 ∧ (treeFile c.tree pathA).isSome = true ∧
      c.authorEmail = emailZ :=
  distinct_authors_nodup_and_from_range exRepo 2 1 pathA emailZ (by decide)

/-- C9 counterexample: with two commits of equal committer timestamp, the
collect-and-sort stage of `RevList` maps two enumerations of the SAME
reachable hash set — the backend enumerates that set by iterating a Go
map, so across two runs on the same repository either order occurs — to
two DIFFERENT output orders.  Hence ties are not broken deterministically
and two runs on the same input need not produce the same order. -/
theorem revList_tie_order_not_deterministic :
    ([2, 3] : List Nat).Perm [3, 2] ∧
    tieC2.time = tieC3.time ∧
    revListFromHist repoTie [2, 3] ≠ revListFromHist repoTie [3, 2] := by
  decide

/-- C9 (amended): every list returned by `RevList` is sorted by committer
timestamp descending (most recent first) — for whichever enumeration of
the reachable-set difference the backend delivers — and two runs on
enumerations of the same hash set return the same commits up to
permutation; the relative order of equal-timestamp commits is not
specified. -/
theorem revList_sorted_descending_ties_unspecified (repo : Repo) (b e : Nat)
    (hist1 hist2 : List Nat) (hperm : hist1.Perm hist2) :
    List.Sorted committerTimeGE (RevList repo b e) ∧
    List.Sorted committerTimeGE (revListFromHist repo hist1) ∧
    (revListFromHist repo hist1).Perm (revListFromHist repo hist2) := by
  refine ⟨?_, ?_, ?_⟩
  · unfold RevList revListFromHist
    exact List.sorted_insertionSort committerTimeGE _
  · unfold revListFromHist
    exact List.sorted_insertionSort committerTimeGE _
  · unfold revListFromHist
    exact ((List.perm_insertionSort _ _).trans (hperm.filterMap _)).trans
      (List.perm_insertionSort _ _).symm

/-- C9 witness: the tied-timestamp repository with the two enumerations of
its hash set. -/
theorem revList_sorted_descending_ties_unspecified_witness :
    List.Sorted committerTimeGE (RevList repoTie 2 1) ∧
    List.Sorted committerTimeGE (revListFromHist repoTie [2, 3]) ∧
    (revListFromHist repoTie [2, 3]).Perm (revListFromHist repoTie [3, 2]) :=
  revList_sorted_descending_ties_unspecified repoTie 2 1 [2, 3] [3, 2] (by decide)

/-- C10: for a path absent from the per-file stats,
`CalculateDiffMetricsWithWhitespace` returns insertions and deletions `0`
while lines-before/lines-after are still the tree line counts of the
parent tree and the commit tree. -/
theorem missing_path_keeps_zero_churn
    (diffStats : List Stat) (tree parentTree : GTree) (filePath : String)
    (h : ∀ s ∈ diffStats, s.name ≠ filePath) :
    (CalculateDiffMetricsWithWhitespace diffStats tree parentTree filePath).insertions = 0 ∧
    (CalculateDiffMetricsWithWhitespace diffStats tree parentTree filePath).deletions = 0 ∧
    (CalculateDiffMetricsWithWhitespace diffStats tree parentTree filePath).linesBefore =
      fileLOCFromTree parentTree filePath ∧
    (CalculateDiffMetricsWithWhitespace diffStats tree parentTree filePath).linesAfter =
      fileLOCFromTree tree filePath := by
  have hsd : statsInsDel diffStats filePath = (0, 0) :=
    statsInsDel_foldl_no_match diffStats filePath (0, 0) h
  simp [CalculateDiffMetricsWithWhitespace, hsd]

/-- C10 witness: stats mentioning only `other.txt`, queried for `a.txt`. -/
theorem missing_path_keeps_zero_churn_witness :
    (CalculateDiffMetricsWithWhitespace exStats exTree exParentTree pathA).insertions = 0 ∧
    (CalculateDiffMetricsWithWhitespace exStats exTree exParentTree pathA).deletions = 0 ∧
    (CalculateDiffMetricsWithWhitespace exStats exTree exParentTree pathA).linesBefore =
      fileLOCFromTree exParentTree pathA ∧
    (CalculateDiffMetricsWithWhitespace exStats exTree exParentTree pathA).linesAfter =
      fileLOCFromTree exTree pathA :=
  missing_path_keeps_zero_churn exStats exTree exParentTree pathA (by decide)

end GitChurn
